import Mathlib

/-!
Verification of the core components of the `digger` metrics engine
(`src/ringbuf.rs`, `src/history.rs`, `src/gpu.rs`, `src/metrics.rs`,
`src/ui.rs`) against its natural-language specification.

Each Rust component is shallowly embedded: machine floats (`f64`/`f32`)
become `ℚ`, unsigned counters (`u64`/`u32`/`usize`) become `ℕ`, the
SQLite table behind `History` becomes a timestamp-sorted list of rows,
and fallible database inserts are abstracted by an error oracle.
-/

universe u

/-! ## RingBuffer (src/ringbuf.rs)

`RingBuffer<T>` wraps a `VecDeque<T>`; the deque is modelled as a list
whose head is the front (oldest) element, so `pop_front` is `List.tail`
(a no-op on the empty list, exactly like `VecDeque::pop_front`) and
`push_back` appends. -/

/-- The `RingBuffer<T>` struct from `src/ringbuf.rs`. -/
structure RingBuffer (α : Type u) where
  buf : List α
  capacity : Nat

namespace RingBuffer

/-- `RingBuffer::new(capacity)` — an empty buffer with the given capacity. -/
def new {α : Type u} (capacity : Nat) : RingBuffer α := ⟨[], capacity⟩

/-- `RingBuffer::push` — `if self.buf.len() >= self.capacity { self.buf.pop_front(); }
self.buf.push_back(item);`. -/
def push {α : Type u} (rb : RingBuffer α) (item : α) : RingBuffer α :=
  ⟨(if rb.capacity ≤ rb.buf.length then rb.buf.tail else rb.buf) ++ [item], rb.capacity⟩

/-- A sequence of `push` calls, first element pushed first. -/
def pushAll {α : Type u} (rb : RingBuffer α) (xs : List α) : RingBuffer α :=
  xs.foldl push rb

/-- `RingBuffer::len`. -/
def len {α : Type u} (rb : RingBuffer α) : Nat := rb.buf.length

/-- `RingBuffer::iter`, as the list of items yielded oldest-to-newest. -/
def iterList {α : Type u} (rb : RingBuffer α) : List α := rb.buf

lemma capacity_pushAll {α : Type u} (rb : RingBuffer α) (xs : List α) :
    (rb.pushAll xs).capacity = rb.capacity := by
  induction xs generalizing rb with
  | nil => rfl
  | cons x xs ih => exact ih (rb.push x)

lemma pushAll_append_singleton {α : Type u} (rb : RingBuffer α) (xs : List α) (x : α) :
    rb.pushAll (xs ++ [x]) = (rb.pushAll xs).push x := by
  rw [pushAll, pushAll, List.foldl_append, List.foldl_cons, List.foldl_nil]

lemma push_buf {α : Type u} (rb : RingBuffer α) (x : α) :
    (rb.push x).buf = (if rb.capacity ≤ rb.buf.length then rb.buf.tail else rb.buf) ++ [x] :=
  rfl

lemma buf_pushAll_new {α : Type u} (C : Nat) (hC : 1 ≤ C) (xs : List α) :
    ((new (α := α) C).pushAll xs).buf = xs.drop (xs.length - C) := by
  induction xs using List.reverseRecOn with
  | nil => simp [pushAll, new]
  | append_singleton xs x ih =>
    rw [pushAll_append_singleton, push_buf, capacity_pushAll]
    show (if (new (α := α) C).capacity ≤ _ then _ else _) ++ [x] = _
    have hlen : ((new (α := α) C).pushAll xs).buf.length = xs.length - (xs.length - C) := by
      rw [ih, List.length_drop]
    have hcap : (new (α := α) C).capacity = C := rfl
    rw [hcap, List.length_append, List.length_singleton]
    by_cases h : C ≤ xs.length
    · rw [if_pos (by omega), ih, List.tail_drop]
      have hidx : xs.length - C + 1 = xs.length + 1 - C := by omega
      rw [hidx, List.drop_append_of_le_length (by omega)]
    · rw [if_neg (by omega), ih]
      have h0 : xs.length - C = 0 := by omega
      have h1 : xs.length + 1 - C = 0 := by omega
      rw [h0, h1]
      simp

/-- C2 (amended): for every capacity `C ≥ 1` and every sequence of `N` pushes
into `RingBuffer::new(C)`, afterwards `len()` equals `min N C`, `iter()` yields
exactly the last `min N C` pushed items in push order, and `push` never makes
the size exceed the capacity.  (The original claim quantified over every
capacity including `0`, where the code keeps one element, see the
counterexample.) -/
theorem ringBuffer_pushAll_spec {α : Type u} (C : Nat) (hC : 1 ≤ C) (xs : List α) :
    ((new (α := α) C).pushAll xs).len = min xs.length C
    ∧ ((new (α := α) C).pushAll xs).iterList = xs.drop (xs.length - C)
    ∧ ∀ (rb : RingBuffer α) (x : α), rb.capacity = C → rb.len ≤ C → (rb.push x).len ≤ C := by
  refine ⟨?_, buf_pushAll_new C hC xs, ?_⟩
  · show ((new (α := α) C).pushAll xs).buf.length = _
    rw [buf_pushAll_new C hC xs, List.length_drop]
    omega
  · intro rb x hcap hlen
    have hlen' : rb.buf.length ≤ C := hlen
    show ((if rb.capacity ≤ rb.buf.length then rb.buf.tail else rb.buf) ++ [x]).length ≤ C
    rw [List.length_append, List.length_singleton]
    by_cases h : rb.capacity ≤ rb.buf.length
    · rw [if_pos h, List.length_tail]
      rw [hcap] at h
      omega
    · rw [if_neg h]
      rw [hcap] at h
      omega

/-- Witness for `ringBuffer_pushAll_spec` at `C = 2`, pushes `[1, 2, 3]`. -/
theorem ringBuffer_pushAll_spec_witness :
    ((new (α := Nat) 2).pushAll [1, 2, 3]).len = min 3 2
    ∧ ((new (α := Nat) 2).pushAll [1, 2, 3]).iterList = [2, 3] := by
  have h := ringBuffer_pushAll_spec (α := Nat) 2 (by decide) [1, 2, 3]
  exact ⟨h.1, by simpa using h.2.1⟩

/-- C2 counterexample: with capacity `0`, a single push makes the size exceed
the capacity (`pop_front` on the empty deque is a no-op, then `push_back`
inserts), refuting "push never makes the size exceed the capacity" for every
capacity. -/
theorem ringBuffer_push_capacity_zero_exceeds :
    (new (α := Nat) 0).capacity < ((new (α := Nat) 0).push 1).len := by decide

/-- C3 (amended): for a `RingBuffer` constructed with capacity `0`, each push
first attempts an eviction (a no-op when the deque is empty) and then inserts,
so after any nonempty sequence of pushes `len()` is `1` (not `0`) and `iter()`
yields exactly the last pushed item. -/
theorem ringBuffer_capacity_zero_amended {α : Type u} (xs : List α) (h : xs ≠ []) :
    ((new (α := α) 0).pushAll xs).len = 1
    ∧ ((new (α := α) 0).pushAll xs).iterList = [xs.getLast h] := by
  obtain ⟨ys, y, rfl⟩ : ∃ ys y, xs = ys ++ [y] :=
    ⟨xs.dropLast, xs.getLast h, (List.dropLast_append_getLast h).symm⟩
  have key : ∀ (zs : List α) (z : α), ((new (α := α) 0).pushAll (zs ++ [z])).buf = [z] := by
    intro zs z
    have hlen1 : ∀ ws : List α, ((new (α := α) 0).pushAll ws).buf.length ≤ 1 := by
      intro ws
      induction ws using List.reverseRecOn with
      | nil => simp [pushAll, new]
      | append_singleton ws w ih =>
        rw [pushAll_append_singleton, push_buf, List.length_append, List.length_singleton]
        rw [if_pos ((capacity_pushAll _ ws).le.trans (Nat.zero_le _))]
        rw [List.length_tail]
        omega
    rw [pushAll_append_singleton, push_buf]
    rw [if_pos ((capacity_pushAll _ zs).le.trans (Nat.zero_le _))]
    have h1 := hlen1 zs
    rcases hb : ((new (α := α) 0).pushAll zs).buf with _ | ⟨a, bs⟩
    · simp
    · rw [hb] at h1
      simp only [List.length_cons] at h1
      have hbs : bs = [] := List.length_eq_zero.mp (by omega)
      simp [hbs]
  constructor
  · show ((new (α := α) 0).pushAll (ys ++ [y])).buf.length = 1
    rw [key]
    rfl
  · show ((new (α := α) 0).pushAll (ys ++ [y])).buf = _
    rw [key, List.getLast_append]
    simp

/-- Witness for `ringBuffer_capacity_zero_amended` at pushes `[5, 7]`. -/
theorem ringBuffer_capacity_zero_amended_witness :
    ((new (α := Nat) 0).pushAll [5, 7]).len = 1
    ∧ ((new (α := Nat) 0).pushAll [5, 7]).iterList = [7] := by
  have h := ringBuffer_capacity_zero_amended (α := Nat) [5, 7] (by decide)
  exact ⟨h.1, by simpa using h.2⟩

/-- C3 counterexample: pushing once into a capacity-`0` buffer leaves length
`1`, not `0` — the buffer does not stay empty. -/
theorem ringBuffer_capacity_zero_nonempty :
    ((new (α := Nat) 0).pushAll [1]).len ≠ 0 := by decide

end RingBuffer

/-! ## History (src/history.rs)

The SQLite table `snapshots (timestamp REAL PRIMARY KEY, cpu, mem_used,
mem_total, net_rx, net_tx)` is modelled as a list of rows kept sorted by
strictly increasing timestamp (the primary key makes timestamps unique, and
every query in the source reads rows `ORDER BY timestamp ASC`).  `f64`/`f32`
values become `ℚ`, `u64` counters become `ℕ`.  A missing connection
(`conn: Option<Connection>` = `None`) is the "unavailable" mode.  The only
fallible statements the claims are about are the per-row `INSERT OR REPLACE`
executions inside `record_batch`; their environmental failures are abstracted
by an oracle `err : Snap → Option String` giving the failure message, if any,
for each row (BEGIN/COMMIT/ROLLBACK and the prune DELETE are modelled as
succeeding). -/

/-- The recorded fields of `metrics::Snapshot` (the six columns that
`History::record_batch` binds as parameters). -/
structure Snap where
  timestamp : ℚ
  cpu_usage_global : ℚ
  memory_used : ℕ
  memory_total : ℕ
  net_rx_bytes : ℕ
  net_tx_bytes : ℕ
deriving DecidableEq

/-- `history::HistoryPoint` — one stored row. -/
structure HistoryPoint where
  timestamp : ℚ
  cpu : ℚ
  mem_used : ℕ
  mem_total : ℕ
  net_rx : ℕ
  net_tx : ℕ
deriving DecidableEq

/-- The row written for a snapshot by the `INSERT OR REPLACE` in
`History::record_batch`. -/
def rowOf (s : Snap) : HistoryPoint :=
  ⟨s.timestamp, s.cpu_usage_global, s.memory_used, s.memory_total,
   s.net_rx_bytes, s.net_tx_bytes⟩

/-- `history::HistoryError`. -/
inductive HistoryError where
  | InitFailed (msg : String)
  | WriteFailed (msg : String)
deriving DecidableEq

/-- `history::History` — the store state.  `conn = some rows` is an open
database whose table holds `rows`; `conn = none` is the unavailable mode. -/
structure History where
  conn : Option (List HistoryPoint)
  retention_secs : ℚ
  last_prune_time : ℚ
  last_error : Option HistoryError
deriving DecidableEq

/-- The store rows have strictly increasing timestamps (`timestamp REAL
PRIMARY KEY` plus ascending order). -/
def SortedKeys (l : List HistoryPoint) : Prop :=
  l.Pairwise (fun a b => a.timestamp < b.timestamp)

/-- `INSERT OR REPLACE` into the timestamp-keyed table: the row replaces any
row with equal timestamp and otherwise lands at its sorted position. -/
def insertOrReplace (r : HistoryPoint) : List HistoryPoint → List HistoryPoint
  | [] => [r]
  | x :: xs =>
    if r.timestamp < x.timestamp then r :: x :: xs
    else if r.timestamp = x.timestamp then r :: xs
    else x :: insertOrReplace r xs

/-- The row-insertion loop of `record_batch`: inserts snapshots in order and
stops at the first failing row, returning the first error message if any. -/
def insertLoop (err : Snap → Option String) :
    List HistoryPoint → List Snap → List HistoryPoint × Option String
  | st, [] => (st, none)
  | st, s :: rest =>
    match err s with
    | some e => (st, some e)
    | none => insertLoop err (insertOrReplace (rowOf s) st) rest

/-- The prune `DELETE FROM snapshots WHERE timestamp < cutoff` with
`cutoff = lastTs - retention`. -/
def pruneStep (st : List HistoryPoint) (lastTs retention : ℚ) : List HistoryPoint :=
  st.filter (fun r => ¬ r.timestamp < lastTs - retention)

/-- The opportunistic prune: runs only when at least 60 seconds of snapshot
time have passed since the last prune. -/
def pruneIfDue (st : List HistoryPoint) (lastTs lastPrune retention : ℚ) : List HistoryPoint :=
  if 60 ≤ lastTs - lastPrune then pruneStep st lastTs retention else st

/-- `History::record_batch`: no-op when unavailable or empty; otherwise runs
the insert loop in a transaction (rolled back in full on the first row error,
committed otherwise), records/clears `last_error`, and finally — in either
case, outside the transaction — prunes rows older than
`last.timestamp - retention_secs` when the last prune is at least 60
snapshot-seconds old. -/
def record_batch (err : Snap → Option String) (h : History) (snaps : List Snap) : History :=
  match h.conn with
  | none => h
  | some st =>
    if snaps.isEmpty then h
    else
      match snaps.getLast? with
      | none => h
      | some lastS =>
        match (insertLoop err st snaps).2 with
        | some e =>
          if 60 ≤ lastS.timestamp - h.last_prune_time then
            ⟨some (pruneStep st lastS.timestamp h.retention_secs),
             h.retention_secs, lastS.timestamp, some (HistoryError.WriteFailed e)⟩
          else
            ⟨some st, h.retention_secs, h.last_prune_time,
             some (HistoryError.WriteFailed e)⟩
        | none =>
          if 60 ≤ lastS.timestamp - h.last_prune_time then
            ⟨some (pruneStep (insertLoop err st snaps).1 lastS.timestamp h.retention_secs),
             h.retention_secs, lastS.timestamp, none⟩
          else
            ⟨some (insertLoop err st snaps).1, h.retention_secs, h.last_prune_time, none⟩

/-- `History::record` — sugar for a single-element batch. -/
def record (err : Snap → Option String) (h : History) (s : Snap) : History :=
  record_batch err h [s]

/-- `History::load_range`: all rows with timestamp in `[lo, hi]`, ascending
(the store is kept in ascending order, so filtering preserves it). -/
def load_range (h : History) (lo hi : ℚ) : List HistoryPoint :=
  match h.conn with
  | none => []
  | some st => st.filter (fun r => lo ≤ r.timestamp ∧ r.timestamp ≤ hi)

/-- The error oracle of an environment where every row insert succeeds. -/
def alwaysOk : Snap → Option String := fun _ => none

/-- An error oracle where every row insert fails (e.g. a full disk). -/
def alwaysFail : Snap → Option String := fun _ => some "disk full"

lemma mem_insertOrReplace (r : HistoryPoint) (l : List HistoryPoint) :
    ∀ x ∈ insertOrReplace r l, x = r ∨ x ∈ l := by
  induction l with
  | nil =>
    intro x hx
    simp [insertOrReplace] at hx
    exact Or.inl hx
  | cons a as ih =>
    intro x hx
    rw [insertOrReplace] at hx
    split_ifs at hx with h1 h2
    · rcases List.mem_cons.mp hx with h | h
      · exact Or.inl h
      · exact Or.inr h
    · rcases List.mem_cons.mp hx with h | h
      · exact Or.inl h
      · exact Or.inr (List.mem_cons_of_mem a h)
    · rcases List.mem_cons.mp hx with h | h
      · exact Or.inr (by simp [h])
      · rcases ih x h with h' | h'
        · exact Or.inl h'
        · exact Or.inr (List.mem_cons_of_mem a h')

lemma exists_ts_insertOrReplace_self (r : HistoryPoint) (l : List HistoryPoint) :
    ∃ x ∈ insertOrReplace r l, x.timestamp = r.timestamp := by
  induction l with
  | nil => exact ⟨r, by simp [insertOrReplace]⟩
  | cons a as ih =>
    rw [insertOrReplace]
    split_ifs with h1 h2
    · exact ⟨r, by simp⟩
    · exact ⟨r, by simp⟩
    · obtain ⟨x, hx, hts⟩ := ih
      exact ⟨x, List.mem_cons_of_mem a hx, hts⟩

lemma exists_ts_insertOrReplace_of_mem (r : HistoryPoint) {l : List HistoryPoint} {t : ℚ}
    (h : ∃ x ∈ l, x.timestamp = t) :
    ∃ x ∈ insertOrReplace r l, x.timestamp = t := by
  induction l with
  | nil => simp at h
  | cons a as ih =>
    obtain ⟨x, hx, hts⟩ := h
    rw [insertOrReplace]
    split_ifs with h1 h2
    · exact ⟨x, List.mem_cons_of_mem r hx, hts⟩
    · rcases List.mem_cons.mp hx with rfl | hxs
      · exact ⟨r, by simp, h2.trans hts⟩
      · exact ⟨x, List.mem_cons_of_mem r hxs, hts⟩
    · rcases List.mem_cons.mp hx with rfl | hxs
      · exact ⟨x, by simp, hts⟩
      · obtain ⟨y, hy, hyts⟩ := ih ⟨x, hxs, hts⟩
        exact ⟨y, List.mem_cons_of_mem a hy, hyts⟩

/-- The cumulative effect of the row inserts of a successful batch. -/
def insFold (st : List HistoryPoint) (snaps : List Snap) : List HistoryPoint :=
  snaps.foldl (fun acc s => insertOrReplace (rowOf s) acc) st

lemma insertLoop_ok (err : Snap → Option String) (snaps : List Snap)
    (st : List HistoryPoint) (h : ∀ s ∈ snaps, err s = none) :
    insertLoop err st snaps = (insFold st snaps, none) := by
  induction snaps generalizing st with
  | nil => rfl
  | cons s rest ih =>
    have hs : err s = none := h s (by simp)
    rw [insertLoop, hs]
    exact ih _ (fun x hx => h x (List.mem_cons_of_mem s hx))

lemma insertLoop_fail (err : Snap → Option String) (snaps : List Snap)
    (st : List HistoryPoint) (h : ∃ s ∈ snaps, (err s).isSome) :
    ∃ e, (insertLoop err st snaps).2 = some e := by
  induction snaps generalizing st with
  | nil => simp at h
  | cons s rest ih =>
    cases hs : err s with
    | some e => exact ⟨e, by rw [insertLoop, hs]⟩
    | none =>
      obtain ⟨w, hw, hws⟩ := h
      rcases List.mem_cons.mp hw with rfl | hwr
      · rw [hs] at hws
        simp at hws
      · rw [insertLoop, hs]
        exact ih _ ⟨w, hwr, hws⟩

lemma exists_ts_insFold {snaps : List Snap} {s : Snap} (hs : s ∈ snaps)
    (st : List HistoryPoint) :
    ∃ x ∈ insFold st snaps, x.timestamp = s.timestamp := by
  have pres : ∀ (rest : List Snap) (l : List HistoryPoint) (t : ℚ),
      (∃ x ∈ l, x.timestamp = t) → ∃ x ∈ insFold l rest, x.timestamp = t := by
    intro rest
    induction rest with
    | nil => exact fun l t h => h
    | cons a as ih => exact fun l t h => ih _ _ (exists_ts_insertOrReplace_of_mem _ h)
  induction snaps generalizing st with
  | nil => simp at hs
  | cons a as ih =>
    rcases List.mem_cons.mp hs with rfl | has
    · exact pres as _ _ (exists_ts_insertOrReplace_self _ _)
    · exact ih has _

lemma record_batch_ok (err : Snap → Option String) (st : List HistoryPoint)
    (ret lpt : ℚ) (le : Option HistoryError) (snaps : List Snap) (lastS : Snap)
    (hok : ∀ s ∈ snaps, err s = none) (hlast : snaps.getLast? = some lastS) :
    record_batch err ⟨some st, ret, lpt, le⟩ snaps =
      ⟨some (pruneIfDue (insFold st snaps) lastS.timestamp lpt ret), ret,
       (if 60 ≤ lastS.timestamp - lpt then lastS.timestamp else lpt), none⟩ := by
  have hne : snaps ≠ [] := by
    intro hn
    rw [hn] at hlast
    simp at hlast
  have hemp : snaps.isEmpty = false := by simpa using hne
  rw [record_batch]
  simp only [hemp, Bool.false_eq_true, if_false, hlast, insertLoop_ok err snaps st hok]
  rw [pruneIfDue]
  split_ifs with hdue <;> rfl

lemma record_batch_err (err : Snap → Option String) (st : List HistoryPoint)
    (ret lpt : ℚ) (le : Option HistoryError) (snaps : List Snap) (lastS : Snap)
    (hfail : ∃ s ∈ snaps, (err s).isSome) (hlast : snaps.getLast? = some lastS) :
    ∃ m, record_batch err ⟨some st, ret, lpt, le⟩ snaps =
      ⟨some (pruneIfDue st lastS.timestamp lpt ret), ret,
       (if 60 ≤ lastS.timestamp - lpt then lastS.timestamp else lpt),
       some (HistoryError.WriteFailed m)⟩ := by
  have hne : snaps ≠ [] := by
    intro hn
    rw [hn] at hfail
    simp at hfail
  have hemp : snaps.isEmpty = false := by simpa using hne
  obtain ⟨e, he⟩ := insertLoop_fail err snaps st hfail
  refine ⟨e, ?_⟩
  rw [record_batch]
  simp only [hemp, Bool.false_eq_true, if_false, hlast, he]
  rw [pruneIfDue]
  split_ifs with hdue <;> rfl

/-- C1 (amended): for `History::record_batch` on an open store, if any row in
the batch fails to insert, the transaction is rolled back — the table
afterwards is exactly the pre-batch table (up to the opportunistic prune,
which runs outside the transaction) and `last_error` is a `WriteFailed`
value; if every row inserts successfully, `last_error` is cleared and for
every batch snapshot a row with its timestamp is present afterwards unless
that timestamp falls below the prune cutoff when the prune triggers.  (The
original claim omitted the prune caveat: the prune piggybacked on the same
call can delete batch rows older than `last.timestamp - retention_secs`, see
the counterexample.) -/
theorem record_batch_atomic_amended (err : Snap → Option String)
    (st : List HistoryPoint) (ret lpt : ℚ) (le : Option HistoryError)
    (snaps : List Snap) (lastS : Snap) (hlast : snaps.getLast? = some lastS) :
    ((∃ s ∈ snaps, (err s).isSome) →
      (record_batch err ⟨some st, ret, lpt, le⟩ snaps).conn
          = some (pruneIfDue st lastS.timestamp lpt ret)
      ∧ ∃ m, (record_batch err ⟨some st, ret, lpt, le⟩ snaps).last_error
          = some (HistoryError.WriteFailed m))
    ∧ ((∀ s ∈ snaps, err s = none) →
      (record_batch err ⟨some st, ret, lpt, le⟩ snaps).last_error = none
      ∧ ∀ s ∈ snaps,
          (60 ≤ lastS.timestamp - lpt → ¬ s.timestamp < lastS.timestamp - ret) →
          ∃ x ∈ ((record_batch err ⟨some st, ret, lpt, le⟩ snaps).conn).getD [],
            x.timestamp = s.timestamp) := by
  constructor
  · intro hfail
    obtain ⟨m, hm⟩ := record_batch_err err st ret lpt le snaps lastS hfail hlast
    rw [hm]
    exact ⟨rfl, m, rfl⟩
  · intro hok
    rw [record_batch_ok err st ret lpt le snaps lastS hok hlast]
    refine ⟨rfl, ?_⟩
    intro s hs hcut
    obtain ⟨x, hx, hts⟩ := exists_ts_insFold hs st
    show ∃ y ∈ pruneIfDue (insFold st snaps) lastS.timestamp lpt ret, y.timestamp = s.timestamp
    rw [pruneIfDue]
    split_ifs with hdue
    · refine ⟨x, ?_, hts⟩
      rw [pruneStep, List.mem_filter]
      refine ⟨hx, ?_⟩
      simp only [decide_eq_true_eq, hts]
      exact hcut hdue
    · exact ⟨x, hx, hts⟩

/-- Witness for `record_batch_atomic_amended`: an all-valid singleton batch at
timestamp 100 into an empty store with retention 50 clears `last_error` and
leaves a row at timestamp 100. -/
theorem record_batch_atomic_amended_witness :
    (record_batch alwaysOk ⟨some [], 50, 0, none⟩ [⟨100, 1, 2, 3, 4, 5⟩]).last_error = none
    ∧ ∃ x ∈ ((record_batch alwaysOk ⟨some [], 50, 0, none⟩ [⟨100, 1, 2, 3, 4, 5⟩]).conn).getD [],
        x.timestamp = (100 : ℚ) := by
  have h := (record_batch_atomic_amended alwaysOk [] 50 0 none [⟨100, 1, 2, 3, 4, 5⟩]
      ⟨100, 1, 2, 3, 4, 5⟩ rfl).2 (fun s _ => rfl)
  exact ⟨h.1, h.2 ⟨100, 1, 2, 3, 4, 5⟩ (by simp) (fun _ => by norm_num)⟩

/-- C1 counterexample: an all-valid two-row batch at timestamps 0 and 100 into
an empty store with retention 50 commits both rows, but the opportunistic
prune in the same call (cutoff `100 - 50 = 50`) deletes the row at timestamp
0 — so not all rows of a successful batch are present afterwards. -/
theorem record_batch_prune_deletes_batch_row :
    (record_batch alwaysOk ⟨some [], 50, 0, none⟩
        [⟨0, 1, 2, 3, 4, 5⟩, ⟨100, 1, 2, 3, 4, 5⟩]).last_error = none
    ∧ rowOf ⟨0, 1, 2, 3, 4, 5⟩ ∉
        ((record_batch alwaysOk ⟨some [], 50, 0, none⟩
            [⟨0, 1, 2, 3, 4, 5⟩, ⟨100, 1, 2, 3, 4, 5⟩]).conn).getD [] := by
  have hres : record_batch alwaysOk ⟨some [], 50, 0, none⟩
      [⟨0, 1, 2, 3, 4, 5⟩, ⟨100, 1, 2, 3, 4, 5⟩]
      = ⟨some [rowOf ⟨100, 1, 2, 3, 4, 5⟩], 50, 100, none⟩ := by
    norm_num [record_batch, insertLoop, alwaysOk, insertOrReplace, pruneStep, rowOf,
      List.getLast?, List.getLast]
  rw [hres]
  refine ⟨rfl, ?_⟩
  norm_num [rowOf]

/-- C7: after a `record_batch` call on an open store whose last snapshot
timestamp is at least 60 seconds (in snapshot time) past the last prune time,
every row remaining in the store has timestamp at least
`last.timestamp - retention_secs` — all older rows are deleted. -/
theorem record_batch_prune_retention (err : Snap → Option String)
    (st : List HistoryPoint) (ret lpt : ℚ) (le : Option HistoryError)
    (snaps : List Snap) (lastS : Snap)
    (hok : ∀ s ∈ snaps, err s = none) (hlast : snaps.getLast? = some lastS)
    (hdue : 60 ≤ lastS.timestamp - lpt) :
    ∀ x ∈ ((record_batch err ⟨some st, ret, lpt, le⟩ snaps).conn).getD [],
      lastS.timestamp - ret ≤ x.timestamp := by
  rw [record_batch_ok err st ret lpt le snaps lastS hok hlast]
  intro x hx
  show lastS.timestamp - ret ≤ x.timestamp
  rw [Option.getD_some, pruneIfDue, if_pos hdue, pruneStep] at hx
  rw [List.mem_filter] at hx
  have := hx.2
  simp only [decide_eq_true_eq] at this
  exact not_lt.mp this

/-- Witness for `record_batch_prune_retention`: recording a snapshot at
timestamp 100 with retention 50 over a store holding a row at timestamp 10
prunes that old row; the surviving store is exactly the new row, whose
timestamp satisfies the retention bound. -/
theorem record_batch_prune_retention_witness :
    (record_batch alwaysOk ⟨some [⟨10, 0, 0, 0, 0, 0⟩], 50, 0, none⟩
        [⟨100, 1, 2, 3, 4, 5⟩]).conn = some [rowOf ⟨100, 1, 2, 3, 4, 5⟩]
    ∧ (100 : ℚ) - 50 ≤ (rowOf ⟨100, 1, 2, 3, 4, 5⟩).timestamp := by
  have hconn : (record_batch alwaysOk ⟨some [⟨10, 0, 0, 0, 0, 0⟩], 50, 0, none⟩
      [⟨100, 1, 2, 3, 4, 5⟩]).conn = some [rowOf ⟨100, 1, 2, 3, 4, 5⟩] := by
    norm_num [record_batch, insertLoop, alwaysOk, insertOrReplace, pruneStep, rowOf,
      List.getLast?, List.getLast]
  refine ⟨hconn, ?_⟩
  have h := record_batch_prune_retention alwaysOk [⟨10, 0, 0, 0, 0, 0⟩] 50 0 none
      [⟨100, 1, 2, 3, 4, 5⟩] ⟨100, 1, 2, 3, 4, 5⟩ (fun s _ => rfl) rfl (by norm_num)
  exact h (rowOf ⟨100, 1, 2, 3, 4, 5⟩) (by rw [hconn]; simp)

/-- C10: even when a batch fails mid-way and its transaction rolls back, the
opportunistic prune still runs when due — the resulting table is exactly the
pre-batch table with every row older than `last.timestamp - retention_secs`
deleted, so pre-existing old rows disappear despite the write error. -/
theorem record_batch_prunes_despite_failure (err : Snap → Option String)
    (st : List HistoryPoint) (ret lpt : ℚ) (le : Option HistoryError)
    (snaps : List Snap) (lastS : Snap)
    (hfail : ∃ s ∈ snaps, (err s).isSome) (hlast : snaps.getLast? = some lastS)
    (hdue : 60 ≤ lastS.timestamp - lpt) :
    (record_batch err ⟨some st, ret, lpt, le⟩ snaps).conn
      = some (pruneStep st lastS.timestamp ret)
    ∧ ∀ x ∈ st, x.timestamp < lastS.timestamp - ret →
        x ∉ ((record_batch err ⟨some st, ret, lpt, le⟩ snaps).conn).getD [] := by
  obtain ⟨m, hm⟩ := record_batch_err err st ret lpt le snaps lastS hfail hlast
  rw [hm]
  constructor
  · rw [pruneIfDue, if_pos hdue]
  · intro x _ hold hmem
    rw [Option.getD_some, pruneIfDue, if_pos hdue, pruneStep, List.mem_filter] at hmem
    have := hmem.2
    simp only [decide_eq_true_eq] at this
    exact this hold

/-- Witness for `record_batch_prunes_despite_failure`: a failing batch whose
snapshot is at timestamp 100 (retention 50) still prunes the pre-existing row
at timestamp 10, leaving the store empty. -/
theorem record_batch_prunes_despite_failure_witness :
    (record_batch alwaysFail ⟨some [⟨10, 0, 0, 0, 0, 0⟩], 50, 0, none⟩
        [⟨100, 1, 2, 3, 4, 5⟩]).conn = some []
    ∧ (⟨10, 0, 0, 0, 0, 0⟩ : HistoryPoint) ∉
        ((record_batch alwaysFail ⟨some [⟨10, 0, 0, 0, 0, 0⟩], 50, 0, none⟩
            [⟨100, 1, 2, 3, 4, 5⟩]).conn).getD [] := by
  have h := record_batch_prunes_despite_failure alwaysFail [⟨10, 0, 0, 0, 0, 0⟩] 50 0 none
      [⟨100, 1, 2, 3, 4, 5⟩] ⟨100, 1, 2, 3, 4, 5⟩
      ⟨⟨100, 1, 2, 3, 4, 5⟩, by simp, rfl⟩ rfl (by norm_num)
  refine ⟨?_, h.2 ⟨10, 0, 0, 0, 0, 0⟩ (by simp) (by norm_num)⟩
  rw [h.1]
  norm_num [pruneStep]

lemma sortedKeys_insertOrReplace {l : List HistoryPoint} (r : HistoryPoint)
    (h : SortedKeys l) : SortedKeys (insertOrReplace r l) := by
  induction l with
  | nil => simp [insertOrReplace, SortedKeys]
  | cons a as ih =>
    obtain ⟨ha, has⟩ := List.pairwise_cons.mp h
    rw [insertOrReplace]
    split_ifs with h1 h2
    · refine List.Pairwise.cons ?_ (List.Pairwise.cons ha has)
      intro y hy
      rcases List.mem_cons.mp hy with rfl | hys
      · exact h1
      · exact h1.trans (ha y hys)
    · exact List.Pairwise.cons
        (fun y hy => lt_of_le_of_lt (le_of_eq h2) (ha y hy)) has
    · refine List.Pairwise.cons ?_ (ih has)
      intro y hy
      rcases mem_insertOrReplace r as y hy with rfl | hys
      · exact lt_of_le_of_ne (not_lt.mp h1) (fun he => h2 he.symm)
      · exact ha y hys

lemma countP_ts_insertOrReplace {l : List HistoryPoint} (r : HistoryPoint)
    (h : SortedKeys l) :
    (insertOrReplace r l).countP (fun y => decide (y.timestamp = r.timestamp)) = 1 := by
  induction l with
  | nil => simp [insertOrReplace]
  | cons a as ih =>
    obtain ⟨ha, has⟩ := List.pairwise_cons.mp h
    rw [insertOrReplace]
    split_ifs with h1 h2
    · have hz : (a :: as).countP (fun y => decide (y.timestamp = r.timestamp)) = 0 := by
        rw [List.countP_eq_zero]
        intro y hy
        simp only [decide_eq_true_eq]
        rcases List.mem_cons.mp hy with rfl | hys
        · exact fun he => absurd (he ▸ h1) (lt_irrefl _)
        · have hlt : r.timestamp < y.timestamp := h1.trans (ha y hys)
          exact fun he => absurd (he ▸ hlt) (lt_irrefl _)
      rw [List.countP_cons_of_pos _ _ (by simp), hz]
    · have hz : as.countP (fun y => decide (y.timestamp = r.timestamp)) = 0 := by
        rw [List.countP_eq_zero]
        intro y hy
        simp only [decide_eq_true_eq]
        have hlt : r.timestamp < y.timestamp := lt_of_le_of_lt (le_of_eq h2) (ha y hy)
        exact fun he => absurd (he ▸ hlt) (lt_irrefl _)
      rw [List.countP_cons_of_pos _ _ (by simp), hz]
    · rw [List.countP_cons_of_neg, ih has]
      simp only [decide_eq_true_eq]
      exact fun he => h2 he.symm

lemma eq_of_ts_insertOrReplace {l : List HistoryPoint} (r : HistoryPoint)
    (h : SortedKeys l) :
    ∀ y ∈ insertOrReplace r l, y.timestamp = r.timestamp → y = r := by
  induction l with
  | nil =>
    intro y hy _
    simpa [insertOrReplace] using hy
  | cons a as ih =>
    obtain ⟨ha, has⟩ := List.pairwise_cons.mp h
    intro y hy hts
    rw [insertOrReplace] at hy
    split_ifs at hy with h1 h2
    · rcases List.mem_cons.mp hy with rfl | hy2
      · rfl
      rcases List.mem_cons.mp hy2 with rfl | hy3
      · exact absurd (hts ▸ h1) (lt_irrefl _)
      · have hlt : r.timestamp < y.timestamp := h1.trans (ha y hy3)
        exact absurd (hts ▸ hlt) (lt_irrefl _)
    · rcases List.mem_cons.mp hy with rfl | hy2
      · rfl
      · have hlt : r.timestamp < y.timestamp := lt_of_le_of_lt (le_of_eq h2) (ha y hy2)
        exact absurd (hts ▸ hlt) (lt_irrefl _)
    · rcases List.mem_cons.mp hy with rfl | hy2
      · exact absurd hts.symm h2
      · exact ih has y hy2 hts

lemma sortedKeys_filter (p : HistoryPoint → Bool) {l : List HistoryPoint}
    (h : SortedKeys l) : SortedKeys (l.filter p) :=
  List.Pairwise.sublist (List.filter_sublist l) h

lemma countP_filter_keep {l : List HistoryPoint} (p q : HistoryPoint → Bool)
    (h : ∀ y ∈ l, p y = true → q y = true) :
    (l.filter q).countP p = l.countP p := by
  rw [List.countP_filter]
  apply List.countP_congr
  intro x hx
  constructor
  · intro hpq
    simp only [Bool.and_eq_true] at hpq
    exact hpq.1
  · intro hp
    simp only [Bool.and_eq_true]
    exact ⟨hp, h x hx hp⟩

/-- C6: recording two snapshots with the same timestamp on an open store
(successful inserts, nonnegative retention) leaves exactly one row for that
timestamp, holding the later call's values — the timestamp-keyed
`INSERT OR REPLACE` overwrites and never duplicates. -/
theorem record_same_timestamp_upsert (err : Snap → Option String)
    (st : List HistoryPoint) (ret lpt : ℚ) (le : Option HistoryError)
    (s1 s2 : Snap) (hsorted : SortedKeys st) (hret : 0 ≤ ret)
    (hts : s1.timestamp = s2.timestamp)
    (he1 : err s1 = none) (he2 : err s2 = none) :
    ∃ st2, (record err (record err ⟨some st, ret, lpt, le⟩ s1) s2).conn = some st2
      ∧ st2.countP (fun y => decide (y.timestamp = s2.timestamp)) = 1
      ∧ ∀ y ∈ st2, y.timestamp = s2.timestamp → y = rowOf s2 := by
  have hl1 : ∀ s ∈ [s1], err s = none := by
    intro s hs
    rw [List.mem_singleton.mp hs]
    exact he1
  have hl2 : ∀ s ∈ [s2], err s = none := by
    intro s hs
    rw [List.mem_singleton.mp hs]
    exact he2
  have hins1 : insFold st [s1] = insertOrReplace (rowOf s1) st := rfl
  have h1 := record_batch_ok err st ret lpt le [s1] s1 hl1 (by simp)
  rw [record, record, h1]
  have h2 := record_batch_ok err
      (pruneIfDue (insFold st [s1]) s1.timestamp lpt ret) ret
      (if 60 ≤ s1.timestamp - lpt then s1.timestamp else lpt) none [s2] s2 hl2 (by simp)
  rw [h2]
  set lpt' := if 60 ≤ s1.timestamp - lpt then s1.timestamp else lpt with hlpt
  set st1 := pruneIfDue (insFold st [s1]) s1.timestamp lpt ret with hst1
  have hsorted1 : SortedKeys st1 := by
    rw [hst1, hins1, pruneIfDue]
    split_ifs with h
    · exact sortedKeys_filter _ (sortedKeys_insertOrReplace _ hsorted)
    · exact sortedKeys_insertOrReplace _ hsorted
  have hins2 : insFold st1 [s2] = insertOrReplace (rowOf s2) st1 := rfl
  refine ⟨pruneIfDue (insFold st1 [s2]) s2.timestamp lpt' ret, rfl, ?_, ?_⟩
  · have hcnt : (insertOrReplace (rowOf s2) st1).countP
        (fun y => decide (y.timestamp = s2.timestamp)) = 1 :=
      countP_ts_insertOrReplace (rowOf s2) hsorted1
    rw [hins2, pruneIfDue]
    split_ifs with h
    · rw [pruneStep, countP_filter_keep _ _ ?_, hcnt]
      intro y _ hp
      simp only [decide_eq_true_eq] at hp ⊢
      rw [hp]
      intro hcon
      linarith
    · exact hcnt
  · intro y hy hyts
    have hy' : y ∈ insertOrReplace (rowOf s2) st1 := by
      rw [hins2, pruneIfDue] at hy
      split_ifs at hy with h
      · exact List.mem_of_mem_filter hy
      · exact hy
    exact eq_of_ts_insertOrReplace (rowOf s2) hsorted1 y hy' hyts

/-- Witness for `record_same_timestamp_upsert`: recording cpu 1 then cpu 2 at
the same timestamp 50 into an empty store leaves exactly one row at
timestamp 50. -/
theorem record_same_timestamp_upsert_witness :
    ∃ st2, (record alwaysOk (record alwaysOk ⟨some [], 100, 0, none⟩
        ⟨50, 1, 0, 0, 0, 0⟩) ⟨50, 2, 0, 0, 0, 0⟩).conn = some st2
      ∧ st2.countP (fun y => decide (y.timestamp = (50 : ℚ))) = 1 := by
  obtain ⟨st2, hconn, hcnt, _⟩ := record_same_timestamp_upsert alwaysOk [] 100 0 none
    ⟨50, 1, 0, 0, 0, 0⟩ ⟨50, 2, 0, 0, 0, 0⟩ (List.Pairwise.nil) (by norm_num) rfl rfl rfl
  exact ⟨st2, hconn, hcnt⟩

/-- The bucket key `CAST((timestamp - ?1) / ?3 AS INTEGER)` of the
downsampling query.  For rows with `lo ≤ timestamp` and a positive bucket
width, SQL truncation toward zero coincides with the floor. -/
def bucketIdx (lo bucket ts : ℚ) : ℤ := ⌊(ts - lo) / bucket⌋

/-- One output row of `load_range_downsampled`: `AVG` over a bucket of rows —
a rational average for the REAL columns (`timestamp`, `cpu`), and
`CAST(AVG(..) AS INTEGER)` (truncation; the values are nonnegative, so this
is the floor) for the integer columns. -/
def avgRow (g : List HistoryPoint) : HistoryPoint :=
  { timestamp := (g.map (fun r => r.timestamp)).sum / (g.length : ℚ),
    cpu := (g.map (fun r => r.cpu)).sum / (g.length : ℚ),
    mem_used := (⌊(g.map (fun r => (r.mem_used : ℚ))).sum / (g.length : ℚ)⌋).toNat,
    mem_total := (⌊(g.map (fun r => (r.mem_total : ℚ))).sum / (g.length : ℚ)⌋).toNat,
    net_rx := (⌊(g.map (fun r => (r.net_rx : ℚ))).sum / (g.length : ℚ)⌋).toNat,
    net_tx := (⌊(g.map (fun r => (r.net_tx : ℚ))).sum / (g.length : ℚ)⌋).toNat }

/-- `History::load_range_downsampled(from, to, max_points)`: empty when
unavailable or `max_points == 0`; falls back to `load_range` when the bucket
width `(to - from) / max_points` is non-positive; otherwise groups the rows
with timestamp in `[lo, hi]` by bucket key and returns one averaged row per
nonempty bucket.  The store is kept in ascending timestamp order, so grouping
by first occurrence (`dedup` of the key list) lists the groups in the same
ascending order the SQL `GROUP BY ... ORDER BY AVG(timestamp) ASC` does. -/
def load_range_downsampled (h : History) (lo hi : ℚ) (max_points : ℕ) : List HistoryPoint :=
  match h.conn with
  | none => []
  | some st =>
    if max_points = 0 then []
    else
      if (hi - lo) / (max_points : ℚ) ≤ 0 then load_range h lo hi
      else
        ((st.filter (fun r => lo ≤ r.timestamp ∧ r.timestamp ≤ hi)).map
            (fun r => bucketIdx lo ((hi - lo) / (max_points : ℚ)) r.timestamp)).dedup.map
          (fun k => avgRow ((st.filter (fun r => lo ≤ r.timestamp ∧ r.timestamp ≤ hi)).filter
            (fun r => bucketIdx lo ((hi - lo) / (max_points : ℚ)) r.timestamp = k)))

/-- C4 (code bug): `load_range_downsampled` can return `max_points + 1` rows.
A row at exactly `timestamp = to` has bucket key
`CAST((to - from) / bucket AS INTEGER) = max_points`, one past the intended
last bucket `max_points - 1`: with rows at timestamps 0, 5, 10 the call
`load_range_downsampled(0, 10, 2)` returns 3 rows, contradicting the
function's own doc comment ("Returns at most `max_points` data points"). -/
theorem load_range_downsampled_exceeds_max_points :
    (load_range_downsampled
      ⟨some [⟨0, 0, 0, 0, 0, 0⟩, ⟨5, 0, 0, 0, 0, 0⟩, ⟨10, 0, 0, 0, 0, 0⟩],
       86400, 0, none⟩ 0 10 2).length = 3 := by
  norm_num [load_range_downsampled, bucketIdx, List.dedup]

/-! ## Anomaly / event engine (src/ui.rs, `Message::Tick` handler)

The tick handler compares the fresh snapshot against `prev_cpu` /
`prev_mem_pct` and pushes `LogEvent`s.  The source attaches a formatted
message string, an icon and a timestamp string to each event; the claims are
about which rules fire with which severity, so events are modelled by the
rule that produced them plus the severity the source assigns. -/

/-- `ui::EventSeverity`. -/
inductive EventSeverity where
  | info
  | warning
  | critical
deriving DecidableEq

/-- Which anomaly rule of the tick handler produced an event. -/
inductive EventKind where
  | cpuSpike
  | memRise
  | cpuThreshold
  | memThreshold
  | cpuRecovered
  | memRecovered
  | tempAlert
deriving DecidableEq

/-- An entry of the bounded event log (`ui::LogEvent`, without the message
and timestamp strings). -/
structure LogEvent where
  kind : EventKind
  severity : EventSeverity
deriving DecidableEq

/-- The previous-tick state of the anomaly rules (`App::prev_cpu`,
`App::prev_mem_pct`). -/
structure AnomalyState where
  prev_cpu : ℚ
  prev_mem_pct : ℚ
deriving DecidableEq

/-- One tick's observed values: global CPU %, memory %, sensor temperatures. -/
structure TickInput where
  cpu : ℚ
  mem_pct : ℚ
  temps : List ℚ
deriving DecidableEq

/-- `snap.temperatures.iter().map(|t| t.temp_c).fold(0.0_f32, f32::max)`. -/
def maxTemp (temps : List ℚ) : ℚ := temps.foldl max 0

/-- The events pushed by one `Message::Tick` update, in source order: CPU
spike (`cpu_delta > 40.0`), memory rise (`mem_pct > prev + 2.0 && mem_pct >
80.0`), CPU/memory threshold crossing (rising edge, Critical), CPU/memory
recovery (falling edge, Info), temperature alert (`max_temp > 85.0`,
level-triggered, Critical). -/
def anomalyEvents (cpuThr memThr : ℚ) (st : AnomalyState) (t : TickInput) : List LogEvent :=
  (if 40 < t.cpu - st.prev_cpu
    then [⟨EventKind.cpuSpike, EventSeverity.warning⟩] else [])
  ++ (if st.prev_mem_pct + 2 < t.mem_pct ∧ 80 < t.mem_pct
    then [⟨EventKind.memRise, EventSeverity.warning⟩] else [])
  ++ (if cpuThr ≤ t.cpu ∧ st.prev_cpu < cpuThr
    then [⟨EventKind.cpuThreshold, EventSeverity.critical⟩] else [])
  ++ (if memThr ≤ t.mem_pct ∧ st.prev_mem_pct < memThr
    then [⟨EventKind.memThreshold, EventSeverity.critical⟩] else [])
  ++ (if t.cpu < cpuThr ∧ cpuThr ≤ st.prev_cpu
    then [⟨EventKind.cpuRecovered, EventSeverity.info⟩] else [])
  ++ (if t.mem_pct < memThr ∧ memThr ≤ st.prev_mem_pct
    then [⟨EventKind.memRecovered, EventSeverity.info⟩] else [])
  ++ (if 85 < maxTemp t.temps
    then [⟨EventKind.tempAlert, EventSeverity.critical⟩] else [])

/-- After the rules run, the handler stores the current values:
`self.prev_cpu = snap.cpu_usage_global; self.prev_mem_pct = mem_pct;`. -/
def anomalyStep (_st : AnomalyState) (t : TickInput) : AnomalyState :=
  ⟨t.cpu, t.mem_pct⟩

/-- Per-tick event lists over a run of consecutive ticks. -/
def anomalyTrace (cpuThr memThr : ℚ) (st : AnomalyState) :
    List TickInput → List (List LogEvent)
  | [] => []
  | t :: rest =>
    anomalyEvents cpuThr memThr st t :: anomalyTrace cpuThr memThr (anomalyStep st t) rest

/-- The C5 scenario: three consecutive ticks with global CPU 10, 60, 20,
CPU alert threshold 50, memory and temperature quiescent (memory 0 % with
threshold 90, no sensors), starting from a quiescent previous tick
(`prev_cpu` is initialized in `App::new` from the snapshot preceding the
scenario, here CPU 10). -/
def scenarioTrace : List (List LogEvent) :=
  anomalyTrace 50 90 ⟨10, 0⟩ [⟨10, 0, []⟩, ⟨60, 0, []⟩, ⟨20, 0, []⟩]

/-- C5 (amended): the 10→60→20 scenario yields no event at tick 1, a Warning
CPU-spike event (the 50-point jump exceeds the 40-point spike rule) followed
by the Critical threshold-crossing event at tick 2, and the Info recovered
event at tick 3.  (The original claim listed the Critical event as the only
tick-2 event, overlooking the spike rule.) -/
theorem anomaly_scenario_amended :
    scenarioTrace =
      [[],
       [⟨EventKind.cpuSpike, EventSeverity.warning⟩,
        ⟨EventKind.cpuThreshold, EventSeverity.critical⟩],
       [⟨EventKind.cpuRecovered, EventSeverity.info⟩]] := by
  norm_num [scenarioTrace, anomalyTrace, anomalyEvents, anomalyStep, maxTemp]

/-- C5 counterexample: the claimed event trace (exactly one Critical event at
tick 2) differs from the actual one — tick 2 additionally emits the Warning
CPU-spike event. -/
theorem anomaly_scenario_extra_spike :
    scenarioTrace ≠
      [[],
       [⟨EventKind.cpuThreshold, EventSeverity.critical⟩],
       [⟨EventKind.cpuRecovered, EventSeverity.info⟩]] := by
  norm_num [scenarioTrace, anomalyTrace, anomalyEvents, anomalyStep, maxTemp]

/-! ## GPU enrichment (src/gpu.rs)

`enrich_with_nvidia_smi` backfills sysfs-detected NVIDIA devices with data
from the `nvidia-smi` CLI.  The (cached) `query_nvidia_smi()` result is passed
as an explicit `smi` parameter. -/

/-- `gpu::GpuInfo`. -/
structure GpuInfo where
  name : String
  temperature : ℚ
  utilization : ℕ
  memory_used : ℕ
  memory_total : ℕ
  power_watts : ℚ
deriving DecidableEq

instance : Inhabited GpuInfo := ⟨⟨"", 0, 0, 0, 0, 0⟩⟩

/-- `gpu::GpuSnapshot`. -/
structure GpuSnapshot where
  gpus : List GpuInfo
deriving DecidableEq

/-- Substring containment on character lists (Rust `str::contains`). -/
def containsSeq (pat : List Char) : List Char → Bool
  | [] => pat.isEmpty
  | c :: rest => pat.isPrefixOf (c :: rest) || containsSeq pat rest

/-- `gpu.name.contains("NVIDIA")`. -/
def containsNVIDIA (s : String) : Bool := containsSeq "NVIDIA".toList s.toList

/-- The per-device update applied when pairing a sysfs NVIDIA device `g` with
the nvidia-smi device `s`: the name is replaced whenever the CLI reports a
nonempty one, and temperature / utilization / memory / power are backfilled
only when the sysfs value is zero (`memory_used` comes along with
`memory_total`). -/
def applySmi (g s : GpuInfo) : GpuInfo :=
  { name := if ¬ s.name = "" then s.name else g.name,
    temperature :=
      if g.temperature = 0 ∧ ¬ s.temperature = 0 then s.temperature else g.temperature,
    utilization :=
      if g.utilization = 0 ∧ ¬ s.utilization = 0 then s.utilization else g.utilization,
    memory_used :=
      if g.memory_total = 0 ∧ ¬ s.memory_total = 0 then s.memory_used else g.memory_used,
    memory_total :=
      if g.memory_total = 0 ∧ ¬ s.memory_total = 0 then s.memory_total else g.memory_total,
    power_watts :=
      if g.power_watts = 0 ∧ ¬ s.power_watts = 0 then s.power_watts else g.power_watts }

/-- The lockstep walk of `enrich_with_nvidia_smi`: non-NVIDIA sysfs devices
are skipped (`continue`), each NVIDIA sysfs device consumes the next
nvidia-smi device by positional index, and the walk stops (`break`, leaving
the rest untouched) once the CLI list is exhausted. -/
def enrichWalk (smi : List GpuInfo) : ℕ → List GpuInfo → List GpuInfo
  | _, [] => []
  | idx, g :: rest =>
    if containsNVIDIA g.name = false then g :: enrichWalk smi idx rest
    else if smi.length ≤ idx then g :: rest
    else applySmi g (smi.getD idx default) :: enrichWalk smi (idx + 1) rest

/-- The `needs_enrichment` pre-check of `enrich_with_nvidia_smi`. -/
def needsEnrichment (snap : GpuSnapshot) : Bool :=
  snap.gpus.any (fun g =>
    containsNVIDIA g.name &&
      decide (g.temperature = 0 ∨ g.memory_total = 0 ∨ g.power_watts = 0))

/-- `gpu::enrich_with_nvidia_smi`. -/
def enrich_with_nvidia_smi (snap : GpuSnapshot) (smi : List GpuInfo) : GpuSnapshot :=
  if needsEnrichment snap then ⟨enrichWalk smi 0 snap.gpus⟩ else snap

/-- The per-device preservation property of the amended C8: the four
zero-checked fields that sysfs populated are never overwritten. -/
def PreservesPopulated (g g2 : GpuInfo) : Prop :=
  (¬ g.temperature = 0 → g2.temperature = g.temperature)
  ∧ (¬ g.utilization = 0 → g2.utilization = g.utilization)
  ∧ (¬ g.memory_total = 0 → g2.memory_total = g.memory_total ∧ g2.memory_used = g.memory_used)
  ∧ (¬ g.power_watts = 0 → g2.power_watts = g.power_watts)

lemma preservesPopulated_refl (g : GpuInfo) : PreservesPopulated g g :=
  ⟨fun _ => rfl, fun _ => rfl, fun _ => ⟨rfl, rfl⟩, fun _ => rfl⟩

lemma preservesPopulated_applySmi (g s : GpuInfo) : PreservesPopulated g (applySmi g s) := by
  refine ⟨?_, ?_, ?_, ?_⟩
  · intro h
    show (if g.temperature = 0 ∧ ¬ s.temperature = 0 then s.temperature else g.temperature) = _
    rw [if_neg]
    rintro ⟨h0, _⟩
    exact h h0
  · intro h
    show (if g.utilization = 0 ∧ ¬ s.utilization = 0 then s.utilization else g.utilization) = _
    rw [if_neg]
    rintro ⟨h0, _⟩
    exact h h0
  · intro h
    constructor
    · show (if g.memory_total = 0 ∧ ¬ s.memory_total = 0
          then s.memory_total else g.memory_total) = _
      rw [if_neg]
      rintro ⟨h0, _⟩
      exact h h0
    · show (if g.memory_total = 0 ∧ ¬ s.memory_total = 0
          then s.memory_used else g.memory_used) = _
      rw [if_neg]
      rintro ⟨h0, _⟩
      exact h h0
  · intro h
    show (if g.power_watts = 0 ∧ ¬ s.power_watts = 0 then s.power_watts else g.power_watts) = _
    rw [if_neg]
    rintro ⟨h0, _⟩
    exact h h0

lemma forall₂_enrichWalk (smi : List GpuInfo) (gpus : List GpuInfo) :
    ∀ idx, List.Forall₂ PreservesPopulated gpus (enrichWalk smi idx gpus) := by
  induction gpus with
  | nil => exact fun idx => List.Forall₂.nil
  | cons g rest ih =>
    intro idx
    rw [enrichWalk]
    split_ifs with h1 h2
    · exact List.Forall₂.cons (preservesPopulated_refl g) (ih idx)
    · exact List.forall₂_same.mpr (fun x _ => preservesPopulated_refl x)
    · exact List.Forall₂.cons (preservesPopulated_applySmi g _) (ih (idx + 1))

/-- The C8 scenario's sysfs device: populated except for power. -/
def sysfsNv : GpuInfo := ⟨"NVIDIA Card", 55, 40, 100, 1000, 0⟩

/-- The C8 scenario's nvidia-smi device, reporting power 30.5 W. -/
def cliNv : GpuInfo := ⟨"NVIDIA GeForce RTX 2080", 60, 90, 200, 2000, 30.5⟩

/-- The merged device the code produces: original temperature, utilization
and memory, CLI-supplied power — and the CLI-supplied name. -/
def mergedNv : GpuInfo := ⟨"NVIDIA GeForce RTX 2080", 55, 40, 100, 1000, 30.5⟩

/-- C8 (amended): the lockstep enrichment never overwrites the four
zero-checked fields (temperature, utilization, total/used memory, power) when
sysfs populated them, for every device of every snapshot; the device name,
however, is replaced by the CLI-reported name whenever that is nonempty.  A
single sysfs device missing only power, merged with a single CLI device
reporting power 30.5 W, yields exactly one device keeping its original
temperature, utilization and memory, gaining the CLI power — and carrying the
CLI name. -/
theorem enrich_preserves_populated_amended (snap : GpuSnapshot) (smi : List GpuInfo) :
    List.Forall₂ PreservesPopulated snap.gpus (enrich_with_nvidia_smi snap smi).gpus
    ∧ enrich_with_nvidia_smi ⟨[sysfsNv]⟩ [cliNv] = ⟨[mergedNv]⟩ := by
  constructor
  · rw [enrich_with_nvidia_smi]
    split_ifs with h
    · exact forall₂_enrichWalk smi snap.gpus 0
    · exact List.forall₂_same.mpr (fun x _ => preservesPopulated_refl x)
  · have hname : containsNVIDIA "NVIDIA Card" = true := by decide
    have hneeds : needsEnrichment ⟨[sysfsNv]⟩ = true := by
      rw [needsEnrichment]
      simp [sysfsNv, hname]
    rw [enrich_with_nvidia_smi, if_pos hneeds, enrichWalk]
    rw [sysfsNv, cliNv, mergedNv]
    norm_num [hname, enrichWalk, applySmi]
    decide

/-- C8 counterexample: in the scenario the sysfs name "NVIDIA Card" is a
populated field, yet the merged device carries the CLI name instead — the
code does overwrite a field sysfs already populated. -/
theorem enrich_overwrites_populated_name :
    sysfsNv.name ≠ ""
    ∧ ((enrich_with_nvidia_smi ⟨[sysfsNv]⟩ [cliNv]).gpus.getD 0 default).name
        ≠ sysfsNv.name := by
  constructor
  · decide
  · have hname : containsNVIDIA "NVIDIA Card" = true := by decide
    have hneeds : needsEnrichment ⟨[sysfsNv]⟩ = true := by
      rw [needsEnrichment]
      simp [sysfsNv, hname]
    rw [enrich_with_nvidia_smi, if_pos hneeds, enrichWalk]
    rw [sysfsNv, cliNv]
    norm_num [hname, enrichWalk, applySmi]
    decide

/-! ## Collector top-N process selection (src/metrics.rs)

`Collector::collect` builds the full process list, then
`let limit = self.process_limit.min(processes.len());
if limit < processes.len() { processes.select_nth_unstable_by(limit, desc);
processes.truncate(limit); } processes.sort_by(desc);`
with `desc` comparing by CPU usage, descending.  `select_nth_unstable_by`
followed by `truncate` keeps some `limit` processes whose CPU usage is at
least that of every dropped process, and the final sort orders the kept slice
descending; up to the ordering of CPU ties (which the unstable Rust algorithm
leaves unspecified) the result is the first `limit` elements of a descending
sort of the whole list, which is how the pipeline is embedded. -/

/-- The fields of `metrics::ProcessInfo` the top-N selection depends on. -/
structure ProcessInfo where
  pid : ℕ
  cpu_usage : ℚ
deriving DecidableEq

/-- The descending-CPU comparator `b.cpu_usage.partial_cmp(&a.cpu_usage)`
used by both the partial selection and the final sort. -/
def cpuGe (a b : ProcessInfo) : Prop := b.cpu_usage ≤ a.cpu_usage

instance : DecidableRel cpuGe :=
  fun a b => inferInstanceAs (Decidable (b.cpu_usage ≤ a.cpu_usage))

instance : IsTotal ProcessInfo cpuGe := ⟨fun a b => le_total b.cpu_usage a.cpu_usage⟩

instance : IsTrans ProcessInfo cpuGe := ⟨fun _ _ _ h1 h2 => le_trans h2 h1⟩

/-- The top-N pipeline of `Collector::collect` (see the section comment). -/
def selectTopN (process_limit : ℕ) (ps : List ProcessInfo) : List ProcessInfo :=
  if process_limit.min ps.length < ps.length then
    (List.insertionSort cpuGe ps).take (process_limit.min ps.length)
  else
    List.insertionSort cpuGe ps

lemma sorted_take_countP {l : List ProcessInfo} (hs : List.Sorted cpuGe l) :
    ∀ (k : ℕ) (x : ProcessInfo), x ∈ l.take k →
      l.countP (fun y => decide (x.cpu_usage < y.cpu_usage)) < k := by
  induction l with
  | nil =>
    intro k x hx
    simp at hx
  | cons a t ih =>
    intro k x hx
    obtain ⟨ha, ht⟩ := List.pairwise_cons.mp hs
    cases k with
    | zero => simp at hx
    | succ m =>
      rw [List.take_succ_cons] at hx
      rcases List.mem_cons.mp hx with rfl | hx2
      · rw [List.countP_cons_of_neg _ _ (by simp)]
        have hz : t.countP (fun y => decide (x.cpu_usage < y.cpu_usage)) = 0 := by
          rw [List.countP_eq_zero]
          intro y hy
          simp only [decide_eq_true_eq, not_lt]
          exact ha y hy
        rw [hz]
        omega
      · have hih := ih ht m x hx2
        rw [List.countP_cons]
        have hbound : (if decide (x.cpu_usage < a.cpu_usage) = true then 1 else 0) ≤ 1 := by
          split <;> omega
        omega

/-- C9: when the collector sees more processes than the configured limit, the
selected process list has length exactly the limit, is sorted by descending
CPU usage, contains only processes from the input, and contains no process
outside the top-limit by CPU usage (each selected process is strictly
exceeded by fewer than `limit` processes). -/
theorem collect_topN_spec (process_limit : ℕ) (ps : List ProcessInfo)
    (hmore : process_limit < ps.length) :
    (selectTopN process_limit ps).length = process_limit
    ∧ List.Sorted cpuGe (selectTopN process_limit ps)
    ∧ (∀ x ∈ selectTopN process_limit ps, x ∈ ps)
    ∧ ∀ x ∈ selectTopN process_limit ps,
        ps.countP (fun y => decide (x.cpu_usage < y.cpu_usage)) < process_limit := by
  have hmin : process_limit.min ps.length = process_limit := Nat.min_eq_left hmore.le
  have hsel : selectTopN process_limit ps
      = (List.insertionSort cpuGe ps).take process_limit := by
    rw [selectTopN, hmin, if_pos hmore]
  have hsorted := List.sorted_insertionSort cpuGe ps
  have hperm := List.perm_insertionSort cpuGe ps
  have hlenS : (List.insertionSort cpuGe ps).length = ps.length := hperm.length_eq
  rw [hsel]
  refine ⟨?_, ?_, ?_, ?_⟩
  · rw [List.length_take]
    omega
  · exact List.Pairwise.sublist (List.take_sublist _ _) hsorted
  · intro x hx
    exact hperm.subset ((List.take_sublist _ _).subset hx)
  · intro x hx
    have hcnt := sorted_take_countP hsorted process_limit x hx
    rwa [hperm.countP_eq] at hcnt

/-- Witness for `collect_topN_spec`: two processes with CPU 5 and 3, limit 1 —
the selection is the single CPU-5 process. -/
theorem collect_topN_spec_witness :
    (selectTopN 1 [⟨1, 5⟩, ⟨2, 3⟩]).length = 1
    ∧ List.Sorted cpuGe (selectTopN 1 [⟨1, 5⟩, ⟨2, 3⟩]) := by
  have h := collect_topN_spec 1 [⟨1, 5⟩, ⟨2, 3⟩] (by decide)
  exact ⟨h.1, h.2.1⟩
